import Mathlib

/-!
# Verification of the mokuro batch orchestrator (`mokuro/run.py`)

This file gives a shallow embedding of the `run` function of
`mokuro/run.py` and proves properties of the orchestration logic:
path-set resolution (explicit paths plus an optional parent-directory
scan with `_ocr`-stem exclusion and membership-based deduplication),
natural sorting, the confirmation gate, the per-volume fault-isolating
batch loop, and the final summary report.

External effects are modelled explicitly:
* `Env.normalize` models `Path(p).expanduser().absolute()` (a pure
  environment-dependent path normalization);
* `Env.listDir` models `Path(parent_dir).iterdir()`; `none` models the
  `OSError` raised when the directory does not exist or cannot be read;
* `Env.userInput` is the single line returned by `input(...)`;
* `Env.process` models `ovg.process_dir(path, as_one_file=...)`: it can
  succeed, raise an ordinary `Exception`, or raise a `BaseException`
  that is not an `Exception` (e.g. `KeyboardInterrupt`).
-/

/-- Result of one `ovg.process_dir` invocation, as observable at the
`try`/`except Exception` boundary of the batch loop. -/
inductive ProcResult where
  | ok
  | exn
  | fatal
deriving DecidableEq, Repr

/-- One entry yielded by `Path(parent_dir).iterdir()`: its (absolute)
path string and whether `p.is_dir()` holds. -/
structure DirEntry where
  path : String
  isDir : Bool
deriving DecidableEq, Repr

/-- Logger events emitted by `run` (loguru calls), in emission order. -/
inductive LogEvent where
  /-- Event for the info-level message that OCR is disabled. -/
  | infoOcrDisabled
  /-- Event for the error-level message that no paths were found. -/
  | errorNoPaths
  /-- Event for the info-level per-volume progress message, carrying
  the 1-based index, the total count, and the path. -/
  | progress (idx total : Nat) (path : String)
  /-- Event for the error-level traceback log emitted when processing
  the given path raised an `Exception`. -/
  | exceptionAt (path : String)
  /-- Event for the final info-level summary, carrying
  `num_sucessful` and the total count. -/
  | summary (succ total : Nat)
deriving DecidableEq, Repr

/-- Whether a logger event is emitted at error level
(`logger.error` and `logger.exception`; the rest are `logger.info`). -/
def LogEvent.isErrorLevel : LogEvent → Bool
  | .errorNoPaths => true
  | .exceptionAt _ => true
  | _ => false

/-- How a call of `run` ends: a normal `return`, an uncaught `OSError`
from `iterdir` of the parent directory, or an uncaught non-`Exception`
`BaseException` raised while processing the given path. -/
inductive OutcomeKind where
  | normal
  | osError
  | interrupted (path : String)
deriving DecidableEq, Repr

/-- The observable trace of one `run` call: logger events, the list of
paths printed to stdout, whether the confirmation prompt was shown, the
paths passed to `ovg.process_dir` (in call order), and how the call
ended. -/
structure RunTrace where
  log : List LogEvent
  printed : List String
  prompted : Bool
  attempted : List String
  outcome : OutcomeKind
deriving DecidableEq, Repr

/-- The environment a `run` call interacts with. -/
structure Env where
  normalize : String → String
  listDir : String → Option (List DirEntry)
  userInput : String
  process : String → ProcResult

/-- The arguments of `run` that the orchestration logic inspects.
The remaining keyword arguments (reader toggles, model name, CPU flag,
single-file flag) are pass-through configuration consumed only by the
external `OverlayGenerator` collaborator. -/
structure Args where
  paths : List String
  parentDir : Option String
  disableConfirmation : Bool
  disableOcr : Bool

/-- Model of Python `str.lower()` (ASCII case folding, which covers the
affirmative tokens compared against). -/
def pyLower (s : String) : String :=
  String.mk (s.toList.map Char.toLower)

/-- The confirmation test of the code: `inp.lower() in ('y', 'yes')`.
Note: the input is not stripped of surrounding whitespace. -/
def affirmative (s : String) : Bool :=
  pyLower s == "y" || pyLower s == "yes"

/-- Model of Python `str.strip()` with no argument: remove leading and
trailing whitespace. The code under verification never strips the
operator input; this definition exists to state the specification's
"trimmed" reading of the confirmation gate and compare it with the
code's behavior. -/
def pyStrip (s : String) : String :=
  String.mk (((s.toList.dropWhile Char.isWhitespace).reverse.dropWhile Char.isWhitespace).reverse)

/-- The final path component of a path string (pathlib `PurePath.name`):
the characters after the last `'/'`. -/
def baseName (p : String) : String :=
  String.mk ((p.toList.reverse.takeWhile (fun c => c ≠ '/')).reverse)

/-- Index of the last occurrence of `c` in `cs`, if any
(Python `str.rfind`). -/
def lastIdxOf (c : Char) (cs : List Char) : Option Nat :=
  (List.range cs.length).foldl
    (fun acc i => if cs.get? i = some c then some i else acc) none

/-- pathlib `PurePath.stem` of a path: the final component with its last
suffix removed, where `name[i:]` is a suffix only if the last `'.'`
sits at index `i` with `0 < i < len(name) - 1`. -/
def pyStem (p : String) : String :=
  let name := baseName p
  let cs := name.toList
  match lastIdxOf '.' cs with
  | some i => if 0 < i ∧ i + 1 < cs.length then String.mk (cs.take i) else name
  | none => name

/-! ## Natural sort (model of `natsort.natsorted`)

`natsorted` sorts by a key that splits the string form of each path
into maximal runs of digits and non-digits, converting digit runs to
their numeric value, and compares keys lexicographically: a leading
(possibly empty) text chunk followed by alternating (number, text)
pairs. Python's `sorted` is stable, and `List.insertionSort` is the
stable sort by the same total preorder. -/

/-- Accumulator for building a natural-sort key: the leading text
chunk, the later (number, text) chunks in reverse order, and whether
the previous character was a digit. -/
structure NKState where
  head : String
  revRest : List (Nat × String)
  inNum : Bool
deriving Repr

/-- Process one character of a natural-sort key scan. -/
def nkStep (st : NKState) (c : Char) : NKState :=
  if c.isDigit then
    match st.revRest, st.inNum with
    | (n, s) :: tl, true =>
        { head := st.head, revRest := (n * 10 + (c.toNat - 48), s) :: tl, inNum := true }
    | r, _ =>
        { head := st.head, revRest := (c.toNat - 48, "") :: r, inNum := true }
  else
    match st.revRest with
    | [] => { head := st.head.push c, revRest := [], inNum := false }
    | (n, s) :: tl => { head := st.head, revRest := (n, s.push c) :: tl, inNum := false }

/-- The natural-sort key of a string: leading text chunk and the
subsequent (numeric value, following text) chunks, in order. -/
def natKey (s : String) : String × List (Nat × String) :=
  let st := s.toList.foldl nkStep ⟨"", [], false⟩
  (st.head, st.revRest.reverse)

/-- The code points of a string, for code-point-wise (Python-style)
text comparison. -/
def codes (s : String) : List Nat :=
  s.toList.map Char.toNat

/-- The natural-sort key with text chunks as code-point lists, packaged
with lexicographic order on the pair and on the chunk list. -/
def natKeyL (s : String) : Lex (List Nat × List (Lex (Nat × List Nat))) :=
  toLex (codes (natKey s).1, (natKey s).2.map (fun ns => toLex (ns.1, codes ns.2)))

/-- The natural-sort total preorder on strings: comparison of
natural-sort keys. -/
def natLE (a b : String) : Prop :=
  natKeyL a ≤ natKeyL b

instance : DecidableRel natLE :=
  fun a b => inferInstanceAs (Decidable (natKeyL a ≤ natKeyL b))

instance : IsTotal String natLE :=
  ⟨fun a b => le_total (natKeyL a) (natKeyL b)⟩

instance : IsTrans String natLE :=
  ⟨fun _ _ _ hab hbc => le_trans hab hbc⟩

/-- Model of `natsorted`: the stable sort of the paths by natural-sort
key. -/
def natsorted (l : List String) : List String :=
  List.insertionSort natLE l

/-! ## Path-set resolution -/

/-- One step of the parent-directory scan, for one `iterdir` entry:
`if p.is_dir() and p.stem != '_ocr' and p not in paths: paths.append(p)`. -/
def scanChild (acc : List String) (e : DirEntry) : List String :=
  if e.isDir && (pyStem e.path != "_ocr") && !(acc.contains e.path) then
    acc ++ [e.path]
  else
    acc

/-- The working set produced by resolution: the normalized explicit
paths, extended by the parent-directory scan when `parent_dir` is
given. `none` models the uncaught `OSError` raised by `iterdir` when
the parent directory does not exist or cannot be enumerated. -/
def resolvePaths (env : Env) (args : Args) : Option (List String) :=
  let explicit := args.paths.map env.normalize
  match args.parentDir with
  | none => some explicit
  | some pd =>
    match env.listDir (env.normalize pd) with
    | none => none
    | some entries => some (entries.foldl scanChild explicit)

/-! ## Batch loop -/

/-- Accumulated state of the batch loop: logger events so far, the
paths handed to `ovg.process_dir` so far, and `num_sucessful`. -/
structure BatchState where
  log : List LogEvent
  attempted : List String
  succ : Nat
deriving DecidableEq, Repr

/-- The `for i, path in enumerate(paths)` loop. `i` is the 0-based
index of the next path; `total` is `len(paths)`. The second component
is `some p` when a non-`Exception` `BaseException` escaped while
processing `p` (only `Exception` is caught), aborting the loop. -/
def runBatchAux (process : String → ProcResult) (total : Nat) :
    Nat → List String → BatchState → BatchState × Option String
  | _, [], st => (st, none)
  | i, p :: rest, st =>
    let st' : BatchState :=
      { log := st.log ++ [.progress (i + 1) total p],
        attempted := st.attempted ++ [p],
        succ := st.succ }
    match process p with
    | .ok => runBatchAux process total (i + 1) rest
        { log := st'.log, attempted := st'.attempted, succ := st'.succ + 1 }
    | .exn => runBatchAux process total (i + 1) rest
        { log := st'.log ++ [.exceptionAt p], attempted := st'.attempted, succ := st'.succ }
    | .fatal => (st', some p)

/-- The batch runner: the loop followed, on normal completion, by the
`Processed successfully: {num_sucessful}/{len(paths)}` summary. -/
def runBatch (process : String → ProcResult) (paths : List String) :
    BatchState × Option String :=
  match runBatchAux process paths.length 0 paths ⟨[], [], 0⟩ with
  | (st, none) => ({ st with log := st.log ++ [.summary st.succ paths.length] }, none)
  | (st, some p) => (st, some p)

/-! ## The `run` function -/

/-- Shallow embedding of `run` in `mokuro/run.py`. -/
def run (env : Env) (args : Args) : RunTrace :=
  let log0 : List LogEvent := if args.disableOcr then [.infoOcrDisabled] else []
  match resolvePaths env args with
  | none =>
    { log := log0, printed := [], prompted := false, attempted := [], outcome := .osError }
  | some paths0 =>
    if paths0.length = 0 then
      { log := log0 ++ [.errorNoPaths], printed := [], prompted := false,
        attempted := [], outcome := .normal }
    else
      let paths := natsorted paths0
      if !args.disableConfirmation && !(affirmative env.userInput) then
        { log := log0, printed := paths, prompted := true, attempted := [],
          outcome := .normal }
      else
        match runBatch env.process paths with
        | (st, none) =>
          { log := log0 ++ st.log, printed := paths,
            prompted := !args.disableConfirmation, attempted := st.attempted,
            outcome := .normal }
        | (st, some p) =>
          { log := log0 ++ st.log, printed := paths,
            prompted := !args.disableConfirmation, attempted := st.attempted,
            outcome := .interrupted p }

/-! ## Helper lemmas about the batch loop -/

/-- Events already logged are preserved by the rest of the loop. -/
theorem runBatchAux_log_mono (process : String → ProcResult) (total : Nat) :
    ∀ (rest : List String) (i : Nat) (st : BatchState) (e : LogEvent),
      e ∈ st.log → e ∈ (runBatchAux process total i rest st).1.log := by
  intro rest
  induction rest with
  | nil => intro i st e he; simpa [runBatchAux] using he
  | cons p rest ih =>
    intro i st e he
    cases hp : process p with
    | ok => simpa [runBatchAux, hp] using ih (i + 1) _ e (by simp [he])
    | exn => simpa [runBatchAux, hp] using ih (i + 1) _ e (by simp [he])
    | fatal => simp [runBatchAux, hp, he]

/-- The loop never logs a summary event; `runBatch` alone does. -/
theorem runBatchAux_no_summary (process : String → ProcResult) (total : Nat) :
    ∀ (rest : List String) (i : Nat) (st : BatchState) (s t : Nat),
      LogEvent.summary s t ∉ st.log →
      LogEvent.summary s t ∉ (runBatchAux process total i rest st).1.log := by
  intro rest
  induction rest with
  | nil => intro i st s t hs; simpa [runBatchAux] using hs
  | cons p rest ih =>
    intro i st s t hs
    cases hp : process p with
    | ok => simpa [runBatchAux, hp] using ih (i + 1) _ s t (by simp [hs])
    | exn => simpa [runBatchAux, hp] using ih (i + 1) _ s t (by simp [hs])
    | fatal => simp [runBatchAux, hp, hs]

/-- The loop only ever extends the attempted list. -/
theorem runBatchAux_attempted_extends (process : String → ProcResult) (total : Nat) :
    ∀ (rest : List String) (i : Nat) (st : BatchState),
      ∃ t, (runBatchAux process total i rest st).1.attempted = st.attempted ++ t := by
  intro rest
  induction rest with
  | nil => intro i st; exact ⟨[], by simp [runBatchAux]⟩
  | cons p rest ih =>
    intro i st
    cases hp : process p with
    | ok =>
      obtain ⟨t, ht⟩ := ih (i + 1)
        ⟨st.log ++ [LogEvent.progress (i + 1) total p], st.attempted ++ [p], st.succ + 1⟩
      exact ⟨p :: t, by simpa [runBatchAux, hp] using ht⟩
    | exn =>
      obtain ⟨t, ht⟩ := ih (i + 1)
        ⟨(st.log ++ [LogEvent.progress (i + 1) total p]) ++ [LogEvent.exceptionAt p],
          st.attempted ++ [p], st.succ⟩
      exact ⟨p :: t, by simpa [runBatchAux, hp] using ht⟩
    | fatal => exact ⟨[p], by simp [runBatchAux, hp]⟩

/-- When no volume raises a non-`Exception`, the loop never aborts. -/
theorem runBatchAux_none_of_no_fatal (process : String → ProcResult) (total : Nat) :
    ∀ (rest : List String) (i : Nat) (st : BatchState),
      (∀ p ∈ rest, process p ≠ ProcResult.fatal) →
      (runBatchAux process total i rest st).2 = none := by
  intro rest
  induction rest with
  | nil => intro i st _; simp [runBatchAux]
  | cons p rest ih =>
    intro i st h
    cases hp : process p with
    | ok => simpa [runBatchAux, hp] using ih (i + 1) _ (fun q hq => h q (by simp [hq]))
    | exn => simpa [runBatchAux, hp] using ih (i + 1) _ (fun q hq => h q (by simp [hq]))
    | fatal => exact absurd hp (h p (by simp))

/-- When no volume raises a non-`Exception`, every remaining path is
attempted, in order. -/
theorem runBatchAux_attempted_of_no_fatal (process : String → ProcResult) (total : Nat) :
    ∀ (rest : List String) (i : Nat) (st : BatchState),
      (∀ p ∈ rest, process p ≠ ProcResult.fatal) →
      (runBatchAux process total i rest st).1.attempted = st.attempted ++ rest := by
  intro rest
  induction rest with
  | nil => intro i st _; simp [runBatchAux]
  | cons p rest ih =>
    intro i st h
    cases hp : process p with
    | ok =>
      have := ih (i + 1)
        ⟨st.log ++ [LogEvent.progress (i + 1) total p], st.attempted ++ [p], st.succ + 1⟩
        (fun q hq => h q (by simp [hq]))
      simpa [runBatchAux, hp] using this
    | exn =>
      have := ih (i + 1)
        ⟨(st.log ++ [LogEvent.progress (i + 1) total p]) ++ [LogEvent.exceptionAt p],
          st.attempted ++ [p], st.succ⟩
        (fun q hq => h q (by simp [hq]))
      simpa [runBatchAux, hp] using this
    | fatal => exact absurd hp (h p (by simp))

/-- When no volume raises a non-`Exception`, the success counter counts
exactly the successful invocations. -/
theorem runBatchAux_succ_of_no_fatal (process : String → ProcResult) (total : Nat) :
    ∀ (rest : List String) (i : Nat) (st : BatchState),
      (∀ p ∈ rest, process p ≠ ProcResult.fatal) →
      (runBatchAux process total i rest st).1.succ
        = st.succ + (rest.filter (fun p => process p == ProcResult.ok)).length := by
  intro rest
  induction rest with
  | nil => intro i st _; simp [runBatchAux]
  | cons p rest ih =>
    intro i st h
    cases hp : process p with
    | ok =>
      simp only [runBatchAux, hp]
      rw [ih _ _ (fun q hq => h q (by simp [hq]))]
      simp [List.filter_cons, hp]
      omega
    | exn =>
      simp only [runBatchAux, hp]
      rw [ih _ _ (fun q hq => h q (by simp [hq]))]
      simp [List.filter_cons, hp]
    | fatal => exact absurd hp (h p (by simp))

/-- Every `Exception` raised before the loop ends is logged with its
path. -/
theorem runBatchAux_exception_logged (process : String → ProcResult) (total : Nat) :
    ∀ (rest : List String) (i : Nat) (st : BatchState),
      (∀ p ∈ rest, process p ≠ ProcResult.fatal) →
      ∀ p ∈ rest, process p = ProcResult.exn →
        LogEvent.exceptionAt p ∈ (runBatchAux process total i rest st).1.log := by
  intro rest
  induction rest with
  | nil => intro i st _ p hp; simp at hp
  | cons q rest ih =>
    intro i st h p hp hpe
    cases hq : process q with
    | ok =>
      rcases List.mem_cons.mp hp with rfl | hp'
      · exact absurd hpe (by simp [hq])
      · simpa [runBatchAux, hq] using
          ih (i + 1) _ (fun r hr => h r (by simp [hr])) p hp' hpe
    | exn =>
      rcases List.mem_cons.mp hp with rfl | hp'
      · simp only [runBatchAux, hq]
        exact runBatchAux_log_mono process total rest (i + 1) _ (LogEvent.exceptionAt p) (by simp)
      · simpa [runBatchAux, hq] using
          ih (i + 1) _ (fun r hr => h r (by simp [hr])) p hp' hpe
    | fatal => exact absurd hq (h q (by simp))

/-- Without non-`Exception` failures, successes and failures partition
the volume list. -/
theorem count_ok_add_count_exn (process : String → ProcResult) :
    ∀ l : List String, (∀ p ∈ l, process p ≠ ProcResult.fatal) →
      (l.filter (fun p => process p == ProcResult.ok)).length
        + (l.filter (fun p => process p == ProcResult.exn)).length = l.length := by
  intro l
  induction l with
  | nil => intro _; simp
  | cons p rest ih =>
    intro h
    have hrest := ih (fun q hq => h q (by simp [hq]))
    cases hp : process p with
    | ok => simp [List.filter_cons, hp]; omega
    | exn => simp [List.filter_cons, hp]; omega
    | fatal => exact absurd hp (h p (by simp))

/-- Reaching a volume whose processing raises a non-`Exception` aborts
the loop right there: everything up to and including that volume was
attempted, and the raise escapes. -/
theorem runBatchAux_fatal (process : String → ProcResult) (total : Nat) (p : String)
    (hp : process p = ProcResult.fatal) (post : List String) :
    ∀ (pre : List String) (i : Nat) (st : BatchState),
      (∀ q ∈ pre, process q ≠ ProcResult.fatal) →
      (runBatchAux process total i (pre ++ p :: post) st).2 = some p ∧
      (runBatchAux process total i (pre ++ p :: post) st).1.attempted
        = st.attempted ++ (pre ++ [p]) := by
  intro pre
  induction pre with
  | nil => intro i st _; simp [runBatchAux, hp]
  | cons q pre ih =>
    intro i st h
    cases hq : process q with
    | ok =>
      have := ih (i + 1)
        ⟨st.log ++ [LogEvent.progress (i + 1) total q], st.attempted ++ [q], st.succ + 1⟩
        (fun r hr => h r (by simp [hr]))
      constructor
      · simpa [runBatchAux, hq] using this.1
      · simpa [runBatchAux, hq] using this.2
    | exn =>
      have := ih (i + 1)
        ⟨st.log ++ [LogEvent.progress (i + 1) total q, LogEvent.exceptionAt q],
          st.attempted ++ [q], st.succ⟩
        (fun r hr => h r (by simp [hr]))
      constructor
      · simpa [runBatchAux, hq] using this.1
      · simpa [runBatchAux, hq] using this.2
    | fatal => exact absurd hq (h q (by simp))

/-- The first volume of a nonempty list is always attempted. -/
theorem runBatchAux_attempted_cons (process : String → ProcResult) (total : Nat)
    (p : String) (rest : List String) (i : Nat) (st : BatchState) :
    ∃ t, (runBatchAux process total i (p :: rest) st).1.attempted = st.attempted ++ p :: t := by
  cases hp : process p with
  | ok =>
    obtain ⟨t, ht⟩ := runBatchAux_attempted_extends process total rest (i + 1)
      ⟨st.log ++ [LogEvent.progress (i + 1) total p], st.attempted ++ [p], st.succ + 1⟩
    exact ⟨t, by simpa [runBatchAux, hp] using ht⟩
  | exn =>
    obtain ⟨t, ht⟩ := runBatchAux_attempted_extends process total rest (i + 1)
      ⟨st.log ++ [LogEvent.progress (i + 1) total p, LogEvent.exceptionAt p],
        st.attempted ++ [p], st.succ⟩
    exact ⟨t, by simpa [runBatchAux, hp] using ht⟩
  | fatal => exact ⟨[], by simp [runBatchAux, hp]⟩

/-- As soon as there is a volume, some volume is attempted, whatever
happens afterwards. -/
theorem runBatch_attempted_ne_nil (process : String → ProcResult) :
    ∀ paths : List String, paths ≠ [] → (runBatch process paths).1.attempted ≠ []
  | [], h => absurd rfl h
  | p :: rest, _ => by
    obtain ⟨t, ht⟩ := runBatchAux_attempted_cons process (p :: rest).length p rest 0 ⟨[], [], 0⟩
    rcases hr : runBatchAux process (p :: rest).length 0 (p :: rest) ⟨[], [], 0⟩ with ⟨st, o⟩
    rw [hr] at ht
    simp only [runBatch, hr]
    cases o with
    | none => simp at ht ⊢; simp [ht]
    | some q => simp at ht ⊢; simp [ht]

/-! ## Witness fixtures -/

/-- A volume processor failing with an ordinary `Exception` on `/b`. -/
def procExnB : String → ProcResult :=
  fun p => if p = "/b" then ProcResult.exn else ProcResult.ok

/-- A volume processor raising a non-`Exception` (e.g.
`KeyboardInterrupt`) on `/b`. -/
def procFatalB : String → ProcResult :=
  fun p => if p = "/b" then ProcResult.fatal else ProcResult.ok

/-! ## Claims about the batch runner -/

/-- C1: for every confirmed working set, if processing a volume raises
an error (an `Exception`), the error is logged as a diagnostic tagged
with the offending path and the runner continues with the next volume:
no per-volume error escapes the runner (it returns with no escaping
raise) and every path is still attempted. -/
theorem mokuro_C1_fault_isolation (process : String → ProcResult) (paths : List String)
    (h : ∀ p ∈ paths, process p ≠ ProcResult.fatal) :
    (runBatch process paths).2 = none ∧
    (runBatch process paths).1.attempted = paths ∧
    ∀ p ∈ paths, process p = ProcResult.exn →
      LogEvent.exceptionAt p ∈ (runBatch process paths).1.log := by
  have hnone := runBatchAux_none_of_no_fatal process paths.length paths 0 ⟨[], [], 0⟩ h
  have hatt := runBatchAux_attempted_of_no_fatal process paths.length paths 0 ⟨[], [], 0⟩ h
  have hexc := runBatchAux_exception_logged process paths.length paths 0 ⟨[], [], 0⟩ h
  rcases hr : runBatchAux process paths.length 0 paths ⟨[], [], 0⟩ with ⟨st, o⟩
  simp only [hr] at hnone hatt hexc
  obtain rfl : o = none := hnone
  simp only [runBatch, hr]
  refine ⟨trivial, by simpa using hatt, fun p hp hpe => ?_⟩
  exact List.mem_append_left _ (hexc p hp hpe)

theorem mokuro_C1_fault_isolation_witness :
    (runBatch procExnB ["/a", "/b", "/c"]).2 = none ∧
    (runBatch procExnB ["/a", "/b", "/c"]).1.attempted = ["/a", "/b", "/c"] ∧
    ∀ p ∈ ["/a", "/b", "/c"], procExnB p = ProcResult.exn →
      LogEvent.exceptionAt p ∈ (runBatch procExnB ["/a", "/b", "/c"]).1.log :=
  mokuro_C1_fault_isolation procExnB ["/a", "/b", "/c"] (by decide)

/-- C2: for a working set of size N of which exactly k invocations
fail (with an `Exception`), the runner attempts each path exactly once
in ascending order, and the reported succeeded count equals N - k and
is at most N. -/
theorem mokuro_C2_counts (process : String → ProcResult) (paths : List String)
    (h : ∀ p ∈ paths, process p ≠ ProcResult.fatal) :
    (runBatch process paths).1.attempted = paths ∧
    (runBatch process paths).1.succ
      = paths.length - (paths.filter (fun p => process p == ProcResult.exn)).length ∧
    (runBatch process paths).1.succ ≤ paths.length ∧
    LogEvent.summary
        (paths.length - (paths.filter (fun p => process p == ProcResult.exn)).length)
        paths.length
      ∈ (runBatch process paths).1.log := by
  have hnone := runBatchAux_none_of_no_fatal process paths.length paths 0 ⟨[], [], 0⟩ h
  have hatt := runBatchAux_attempted_of_no_fatal process paths.length paths 0 ⟨[], [], 0⟩ h
  have hsucc := runBatchAux_succ_of_no_fatal process paths.length paths 0 ⟨[], [], 0⟩ h
  have hcnt := count_ok_add_count_exn process paths h
  rcases hr : runBatchAux process paths.length 0 paths ⟨[], [], 0⟩ with ⟨st, o⟩
  simp only [hr] at hnone hatt hsucc
  obtain rfl : o = none := hnone
  simp at hsucc
  have hs : st.succ = paths.length
      - (paths.filter (fun p => process p == ProcResult.exn)).length := by
    omega
  simp only [runBatch, hr]
  refine ⟨by simpa using hatt, by exact hs, by omega, ?_⟩
  rw [← hs]
  exact List.mem_append_right _ (by simp)

theorem mokuro_C2_counts_witness :
    (runBatch procExnB ["/a", "/b", "/c"]).1.attempted = ["/a", "/b", "/c"] ∧
    (runBatch procExnB ["/a", "/b", "/c"]).1.succ
      = (["/a", "/b", "/c"] : List String).length
        - ((["/a", "/b", "/c"] : List String).filter
            (fun p => procExnB p == ProcResult.exn)).length ∧
    (runBatch procExnB ["/a", "/b", "/c"]).1.succ
      ≤ (["/a", "/b", "/c"] : List String).length ∧
    LogEvent.summary
        ((["/a", "/b", "/c"] : List String).length
          - ((["/a", "/b", "/c"] : List String).filter
              (fun p => procExnB p == ProcResult.exn)).length)
        (["/a", "/b", "/c"] : List String).length
      ∈ (runBatch procExnB ["/a", "/b", "/c"]).1.log :=
  mokuro_C2_counts procExnB ["/a", "/b", "/c"] (by decide)

/-- C10: only ordinary `Exception`s are isolated at the per-item
boundary. A non-`Exception` raise (such as `KeyboardInterrupt` or
`SystemExit`) during a volume aborts the batch right there: it escapes
the runner, the remaining volumes are not attempted, and no final
summary is emitted. -/
theorem mokuro_C10_fatal_escapes (process : String → ProcResult)
    (pre post : List String) (p : String)
    (hpre : ∀ q ∈ pre, process q ≠ ProcResult.fatal) (hp : process p = ProcResult.fatal) :
    (runBatch process (pre ++ p :: post)).2 = some p ∧
    (runBatch process (pre ++ p :: post)).1.attempted = pre ++ [p] ∧
    ∀ s t, LogEvent.summary s t ∉ (runBatch process (pre ++ p :: post)).1.log := by
  obtain ⟨h2, hatt⟩ := runBatchAux_fatal process (pre ++ p :: post).length p hp post pre 0
    ⟨[], [], 0⟩ hpre
  have hnos := fun s t => runBatchAux_no_summary process (pre ++ p :: post).length
    (pre ++ p :: post) 0 ⟨[], [], 0⟩ s t (by simp)
  rcases hr : runBatchAux process (pre ++ p :: post).length 0 (pre ++ p :: post) ⟨[], [], 0⟩
    with ⟨st, o⟩
  simp only [hr] at h2 hatt hnos
  obtain rfl : o = some p := h2
  simp only [runBatch, hr]
  exact ⟨trivial, by simpa using hatt, hnos⟩

theorem mokuro_C10_fatal_escapes_witness :
    (runBatch procFatalB (["/a"] ++ "/b" :: ["/c"])).2 = some "/b" ∧
    (runBatch procFatalB (["/a"] ++ "/b" :: ["/c"])).1.attempted = ["/a"] ++ ["/b"] ∧
    ∀ s t, LogEvent.summary s t ∉ (runBatch procFatalB (["/a"] ++ "/b" :: ["/c"])).1.log :=
  mokuro_C10_fatal_escapes procFatalB ["/a"] ["/c"] "/b" (by decide) (by decide)

/-! ## Helper lemmas about resolution -/

/-- Membership after one scan step: either already present, or the
entry's own path, which is then a directory with non-sentinel stem. -/
theorem scanChild_mem (acc : List String) (e : DirEntry) (x : String)
    (hx : x ∈ scanChild acc e) :
    x ∈ acc ∨ (e.path = x ∧ e.isDir = true ∧ pyStem e.path ≠ "_ocr") := by
  unfold scanChild at hx
  by_cases hc : (e.isDir && (pyStem e.path != "_ocr") && !(acc.contains e.path)) = true
  · rw [if_pos hc] at hx
    rcases List.mem_append.mp hx with h | h
    · exact Or.inl h
    · simp only [List.mem_singleton] at h
      subst h
      simp only [Bool.and_eq_true, Bool.not_eq_true'] at hc
      exact Or.inr ⟨rfl, hc.1.1, by simpa using hc.1.2⟩
  · rw [if_neg hc] at hx
    exact Or.inl hx

/-- One scan step preserves duplicate-freedom: a path is appended only
when it is not already present. -/
theorem scanChild_nodup (acc : List String) (e : DirEntry) (h : acc.Nodup) :
    (scanChild acc e).Nodup := by
  unfold scanChild
  split
  · rename_i hc
    simp only [Bool.and_eq_true, Bool.not_eq_true'] at hc
    have hnm : e.path ∉ acc := by simpa using hc.2
    simp [List.nodup_append, h, hnm]
  · exact h

/-- The whole scan preserves duplicate-freedom. -/
theorem foldl_scanChild_nodup :
    ∀ (entries : List DirEntry) (acc : List String), acc.Nodup →
      (entries.foldl scanChild acc).Nodup
  | [], _, h => h
  | e :: es, acc, h => foldl_scanChild_nodup es (scanChild acc e) (scanChild_nodup acc e h)

/-- Membership after the whole scan: either an initial (explicit) path
or the path of some scanned entry that is a directory with
non-sentinel stem. -/
theorem foldl_scanChild_mem :
    ∀ (entries : List DirEntry) (acc : List String) (x : String),
      x ∈ entries.foldl scanChild acc →
      x ∈ acc ∨ ∃ e ∈ entries, e.path = x ∧ e.isDir = true ∧ pyStem e.path ≠ "_ocr"
  | [], _, _, hx => Or.inl hx
  | e :: es, acc, x, hx => by
    rcases foldl_scanChild_mem es (scanChild acc e) x hx with h | ⟨e', he', h'⟩
    · rcases scanChild_mem acc e x h with h | h
      · exact Or.inl h
      · exact Or.inr ⟨e, by simp, h⟩
    · exact Or.inr ⟨e', by simp [he'], h'⟩

/-- A path whose base name is the sentinel `_ocr` has stem `_ocr`
(the sentinel name has no removable suffix). -/
theorem pyStem_of_baseName_ocr (x : String) (hx : baseName x = "_ocr") :
    pyStem x = "_ocr" := by
  unfold pyStem
  rw [hx]
  decide

/-! ## Fixtures for witnesses and counterexamples -/

/-- A fixed environment for concrete runs: identity normalization,
the given directory listing for every parent, the given operator
input, and a processor that always succeeds. -/
def mkEnv (entries : Option (List DirEntry)) (inp : String) : Env :=
  { normalize := fun s => s, listDir := fun _ => entries, userInput := inp,
    process := fun _ => ProcResult.ok }

/-- Arguments with confirmation enabled and OCR enabled. -/
def mkArgs (paths : List String) (parent : Option String) : Args :=
  { paths := paths, parentDir := parent, disableConfirmation := false,
    disableOcr := false }

/-! ## Claims about resolution -/

/-- C4 as stated is false: resolution keeps duplicate explicit inputs.
With the same explicit path supplied twice, the working set produced by
resolution contains two equal entries. -/
theorem mokuro_C4_counterexample :
    resolvePaths (mkEnv (some []) "y") (mkArgs ["/a", "/a"] none) = some ["/a", "/a"] ∧
    ¬ (["/a", "/a"] : List String).Nodup :=
  ⟨by decide, by decide⟩

/-- One scan step only ever appends at the end. -/
theorem scanChild_extends (acc : List String) (e : DirEntry) :
    ∃ u, scanChild acc e = acc ++ u := by
  unfold scanChild
  split
  · exact ⟨[e.path], rfl⟩
  · exact ⟨[], by simp⟩

/-- The whole scan only ever appends: the explicit paths remain a
prefix of the working set. -/
theorem foldl_scanChild_extends :
    ∀ (entries : List DirEntry) (acc : List String),
      ∃ t, entries.foldl scanChild acc = acc ++ t
  | [], acc => ⟨[], by simp⟩
  | e :: es, acc => by
    obtain ⟨u, hu⟩ := scanChild_extends acc e
    obtain ⟨t, ht⟩ := foldl_scanChild_extends es (scanChild acc e)
    exact ⟨u ++ t, by rw [List.foldl_cons, ht, hu, List.append_assoc]⟩

/-- C4 (amended): the working set produced by resolution is
duplicate-free if and only if the normalized explicit inputs are
pairwise distinct: the parent-directory scan never introduces a
duplicate (a child is appended only when not already present), while
duplicate explicit inputs are retained as a prefix of the set. -/
theorem mokuro_C4_nodup (env : Env) (args : Args) (l : List String)
    (hres : resolvePaths env args = some l) :
    l.Nodup ↔ (args.paths.map env.normalize).Nodup := by
  cases hpd : args.parentDir with
  | none =>
    simp only [resolvePaths, hpd, Option.some.injEq] at hres
    subst hres
    exact Iff.rfl
  | some pd =>
    cases hls : env.listDir (env.normalize pd) with
    | none => simp [resolvePaths, hpd, hls] at hres
    | some entries =>
      simp only [resolvePaths, hpd, hls, Option.some.injEq] at hres
      subst hres
      constructor
      · intro h
        obtain ⟨t, ht⟩ := foldl_scanChild_extends entries (args.paths.map env.normalize)
        rw [ht] at h
        exact (List.nodup_append.mp h).1
      · exact foldl_scanChild_nodup entries _

theorem mokuro_C4_nodup_witness :
    (["/a", "/b", "/m/vol1"] : List String).Nodup
      ↔ ((["/a", "/b"] : List String).map
          (mkEnv (some [⟨"/m/vol1", true⟩, ⟨"/m/x", false⟩]) "y").normalize).Nodup :=
  mokuro_C4_nodup (mkEnv (some [⟨"/m/vol1", true⟩, ⟨"/m/x", false⟩]) "y")
    (mkArgs ["/a", "/b"] (some "/m")) ["/a", "/b", "/m/vol1"] (by decide)

/-- C8: a scanned child whose base name equals the reserved sentinel
`_ocr` is never added to the working set by the parent-directory scan,
regardless of the other children. -/
theorem mokuro_C8_sentinel_excluded (env : Env) (args : Args) (pd : String)
    (entries : List DirEntry) (l : List String) (x : String)
    (hpd : args.parentDir = some pd)
    (hls : env.listDir (env.normalize pd) = some entries)
    (hres : resolvePaths env args = some l)
    (hx : baseName x = "_ocr")
    (hexp : x ∉ args.paths.map env.normalize) :
    x ∉ l := by
  intro hmem
  simp only [resolvePaths, hpd, hls, Option.some.injEq] at hres
  subst hres
  rcases foldl_scanChild_mem entries _ x hmem with h | ⟨e, _, hep, _, hstem⟩
  · exact hexp h
  · apply hstem
    rw [hep]
    exact pyStem_of_baseName_ocr x hx

theorem mokuro_C8_sentinel_excluded_witness :
    "/m/_ocr" ∉ (["/m/vol1"] : List String) :=
  mokuro_C8_sentinel_excluded (mkEnv (some [⟨"/m/_ocr", true⟩, ⟨"/m/vol1", true⟩]) "y")
    (mkArgs [] (some "/m")) "/m" [⟨"/m/_ocr", true⟩, ⟨"/m/vol1", true⟩] ["/m/vol1"]
    "/m/_ocr" rfl rfl (by decide) (by decide) (by decide)

/-- C9: the scan's exclusion test compares the stem (base name with
the final extension removed) against `_ocr`, so a child is excluded
whenever its stem is `_ocr` even when its full base name is not — as
for a child named `_ocr.bak`, whose base name differs from `_ocr` but
whose stem is `_ocr`. -/
theorem mokuro_C9_stem_excluded (env : Env) (args : Args) (pd : String)
    (entries : List DirEntry) (l : List String) (x : String)
    (hpd : args.parentDir = some pd)
    (hls : env.listDir (env.normalize pd) = some entries)
    (hres : resolvePaths env args = some l)
    (hx : pyStem x = "_ocr")
    (hexp : x ∉ args.paths.map env.normalize) :
    baseName "/m/_ocr.bak" ≠ "_ocr" ∧ pyStem "/m/_ocr.bak" = "_ocr" ∧ x ∉ l := by
  refine ⟨by decide, by decide, fun hmem => ?_⟩
  simp only [resolvePaths, hpd, hls, Option.some.injEq] at hres
  subst hres
  rcases foldl_scanChild_mem entries _ x hmem with h | ⟨e, _, hep, _, hstem⟩
  · exact hexp h
  · exact hstem (by rw [hep]; exact hx)

theorem mokuro_C9_stem_excluded_witness :
    baseName "/m/_ocr.bak" ≠ "_ocr" ∧ pyStem "/m/_ocr.bak" = "_ocr" ∧
    "/m/_ocr.bak" ∉ (["/m/vol1"] : List String) :=
  mokuro_C9_stem_excluded (mkEnv (some [⟨"/m/_ocr.bak", true⟩, ⟨"/m/vol1", true⟩]) "y")
    (mkArgs [] (some "/m")) "/m" [⟨"/m/_ocr.bak", true⟩, ⟨"/m/vol1", true⟩] ["/m/vol1"]
    "/m/_ocr.bak" rfl rfl (by decide) (by decide) (by decide)

/-! ## Claims about the run entry point -/

/-- C5: when resolution produces an empty working set, the run emits
exactly one error-level diagnostic (the "no paths" error), terminates
normally without raising, attempts zero volumes, and never shows the
confirmation prompt. -/
theorem mokuro_C5_empty_set (env : Env) (args : Args)
    (hres : resolvePaths env args = some []) :
    ((run env args).log.filter LogEvent.isErrorLevel) = [LogEvent.errorNoPaths] ∧
    (run env args).outcome = OutcomeKind.normal ∧
    (run env args).attempted = [] ∧
    (run env args).prompted = false := by
  cases hdo : args.disableOcr <;>
    simp [run, hres, hdo, LogEvent.isErrorLevel]

theorem mokuro_C5_empty_set_witness :
    ((run (mkEnv (some []) "y") (mkArgs [] none)).log.filter LogEvent.isErrorLevel)
      = [LogEvent.errorNoPaths] ∧
    (run (mkEnv (some []) "y") (mkArgs [] none)).outcome = OutcomeKind.normal ∧
    (run (mkEnv (some []) "y") (mkArgs [] none)).attempted = [] ∧
    (run (mkEnv (some []) "y") (mkArgs [] none)).prompted = false :=
  mokuro_C5_empty_set (mkEnv (some []) "y") (mkArgs [] none) (by decide)

/-- C7: when a parent directory is supplied but cannot be enumerated,
the enumeration error propagates uncaught out of `run`: the run aborts
before printing the set, before any confirmation prompt and before any
volume is processed. -/
theorem mokuro_C7_parent_error (env : Env) (args : Args) (pd : String)
    (hpd : args.parentDir = some pd)
    (hls : env.listDir (env.normalize pd) = none) :
    (run env args).outcome = OutcomeKind.osError ∧
    (run env args).prompted = false ∧
    (run env args).attempted = [] ∧
    (run env args).printed = [] := by
  have hres : resolvePaths env args = none := by
    simp [resolvePaths, hpd, hls]
  simp [run, hres]

theorem mokuro_C7_parent_error_witness :
    (run (mkEnv none "y") (mkArgs ["/a"] (some "/m"))).outcome = OutcomeKind.osError ∧
    (run (mkEnv none "y") (mkArgs ["/a"] (some "/m"))).prompted = false ∧
    (run (mkEnv none "y") (mkArgs ["/a"] (some "/m"))).attempted = [] ∧
    (run (mkEnv none "y") (mkArgs ["/a"] (some "/m"))).printed = [] :=
  mokuro_C7_parent_error (mkEnv none "y") (mkArgs ["/a"] (some "/m")) "/m" rfl rfl

/-- C3 as stated is false: the code lowercases the operator input but
never trims surrounding whitespace, so the padded input " y " — an
affirmative after trimming and lowering, per the claim — is rejected:
the prompt is shown, zero volumes are attempted and the run ends
normally. -/
theorem mokuro_C3_counterexample :
    pyStrip (pyLower " y ") = "y" ∧
    (run (mkEnv (some []) " y ") (mkArgs ["/a"] none)).prompted = true ∧
    (run (mkEnv (some []) " y ") (mkArgs ["/a"] none)).attempted = [] ∧
    (run (mkEnv (some []) " y ") (mkArgs ["/a"] none)).outcome = OutcomeKind.normal :=
  ⟨by decide, by decide, by decide, by decide⟩

/-- C3 (amended): with confirmation enabled and a nonempty working
set, processing proceeds if and only if the raw input line, lowercased
but not trimmed, equals "y" or "yes"; any other input (including
whitespace-padded affirmatives and the empty string) terminates the
run normally with zero volumes attempted. -/
theorem mokuro_C3_gate (env : Env) (args : Args) (l : List String)
    (hres : resolvePaths env args = some l) (hne : l ≠ [])
    (hc : args.disableConfirmation = false) :
    (run env args).prompted = true ∧
    ((run env args).attempted ≠ [] ↔ affirmative env.userInput = true) ∧
    (affirmative env.userInput = false →
      (run env args).attempted = [] ∧ (run env args).outcome = OutcomeKind.normal) := by
  have hlen : ¬ l.length = 0 := by simpa using hne
  have hsne : natsorted l ≠ [] := by
    intro h0
    have hp := List.perm_insertionSort natLE l
    rw [show List.insertionSort natLE l = natsorted l from rfl, h0] at hp
    exact hne hp.symm.eq_nil
  cases haff : affirmative env.userInput with
  | false =>
    refine ⟨?_, ?_, ?_⟩ <;> simp [run, hres, hlen, hc, haff]
  | true =>
    rcases hrb : runBatch env.process (natsorted l) with ⟨st, o⟩
    have hanil := runBatch_attempted_ne_nil env.process (natsorted l) hsne
    rw [hrb] at hanil
    cases o with
    | none =>
      refine ⟨by simp [run, hres, hlen, hc, haff, hrb], ?_, by simp [haff]⟩
      simpa [run, hres, hlen, hc, haff, hrb] using hanil
    | some q =>
      refine ⟨by simp [run, hres, hlen, hc, haff, hrb], ?_, by simp [haff]⟩
      simpa [run, hres, hlen, hc, haff, hrb] using hanil

theorem mokuro_C3_gate_witness :
    (run (mkEnv (some []) "YES") (mkArgs ["/a"] none)).prompted = true ∧
    ((run (mkEnv (some []) "YES") (mkArgs ["/a"] none)).attempted ≠ []
      ↔ affirmative "YES" = true) ∧
    (affirmative "YES" = false →
      (run (mkEnv (some []) "YES") (mkArgs ["/a"] none)).attempted = [] ∧
      (run (mkEnv (some []) "YES") (mkArgs ["/a"] none)).outcome = OutcomeKind.normal) :=
  mokuro_C3_gate (mkEnv (some []) "YES") (mkArgs ["/a"] none) ["/a"] (by decide)
    (by decide) rfl

/-- C6: the working set is ordered by natural sort on the string form
of each path: the output is a permutation of the input sorted under
natural-sort key comparison, in which numeric runs compare by numeric
value — so paths named vol1, vol2, vol10 come out in that order, not
in the lexicographic order vol1, vol10, vol2. -/
theorem mokuro_C6_natural_sort :
    (∀ l : List String, List.Perm (natsorted l) l ∧ List.Sorted natLE (natsorted l)) ∧
    natsorted ["vol1", "vol10", "vol2"] = ["vol1", "vol2", "vol10"] ∧
    natsorted ["vol10", "vol2", "vol1"] = ["vol1", "vol2", "vol10"] :=
  ⟨fun l => ⟨List.perm_insertionSort natLE l, List.sorted_insertionSort natLE l⟩,
    by decide, by decide⟩
